import Mathlib

/-!
Verification development for the Simple-Rust-Audio-Visualizer-WebAssembly
repository. The definitions below are a shallow embedding of the three
source files `src/lib.rs`, `src/ring_style.rs` and `src/rainbow_style.rs`:
pure computations become Lean functions, `f64` values are modelled by
exact rationals, Rust's sign-preserving float remainder `%` is modelled
explicitly by `rustRem`, the JavaScript `Math.random()` stream is an
explicit input, and fallible / panicking code returns `Option` or
`Except`.
-/

namespace SpecViz

/- ===================================================================
   URL construction, from `SharedAudioProcessor::process_audio_from_path`
   (src/lib.rs lines 98-102):
     let server_url = if !path.starts_with("http") {
         format!("http://127.0.0.1:3000{}", path)
     } else { path.to_string() };
   =================================================================== -/

/-- Embedding of Rust `str::starts_with` on the character lists of the
two strings. -/
def listStartsWith : List Char → List Char → Bool
  | _, [] => true
  | [], _ :: _ => false
  | c :: cs, d :: ds => c = d && listStartsWith cs ds

/-- The URL actually fetched by `process_audio_from_path` for a given
path argument (src/lib.rs lines 98-102). -/
def serverUrl (path : String) : String :=
  if listStartsWith path.data "http".data then path
  else "http://127.0.0.1:3000" ++ path

/-- Modelled from the spec: the spec's side condition "if the configured
path lacks a scheme" (spec section 6, network source). A string carries a
URL scheme when it begins with an ALPHA character followed by scheme
characters (ALPHA / DIGIT / plus / minus / dot) up to a colon, per the
generic URI syntax the spec's word "scheme" refers to. This predicate is
not in the source; it formalises the spec's wording for comparison with
`serverUrl`. -/
def schemeTail : List Char → Bool
  | [] => false
  | c :: cs =>
    if c = ':' then true
    else (c.isAlphanum || c = '+' || c = '-' || c = '.') && schemeTail cs

/-- Modelled from the spec: whether a path string carries a URL scheme
(see `schemeTail`). -/
def hasScheme (s : String) : Bool :=
  match s.data with
  | [] => false
  | c :: cs => c.isAlpha && schemeTail cs

/-- Modelled from the spec: the URL the spec says is fetched — prefixed
with the default local endpoint exactly when the path lacks a scheme. -/
def specUrl (path : String) : String :=
  if hasScheme path then path else "http://127.0.0.1:3000" ++ path

/- ===================================================================
   The streaming ingestion loop, from `process_audio_from_path`
   (src/lib.rs lines 125-146).  Each iteration reads one chunk; a chunk
   exposes a `done` flag (Reflect::get "done", defaulting to false) and
   possibly a `value` (the `if let Ok(value) = Reflect::get(..)` test).
   When `done` is set the loop signals end-of-stream and breaks; when a
   value is present it appends the bytes to the SourceBuffer and then
   awaits `wait_for_updateend` before the next read.
   =================================================================== -/

/-- One result of `reader.read()` as inspected by the loop body. -/
structure ReadChunk where
  done : Bool
  hasValue : Bool

/-- Observable events of the ingestion loop, in program order: an
`append_buffer_with_array_buffer` call, a completed await of
`wait_for_updateend`, and the `end_of_stream` signal. -/
inductive StreamEv
  | append
  | ackAwaited
  | endOfStream
deriving DecidableEq

/-- The event trace produced by the ingestion loop on a given sequence
of read results (src/lib.rs lines 125-146): sequential, one iteration
at a time, an ack await immediately after every append. -/
def ingestTrace : List ReadChunk → List StreamEv
  | [] => []
  | c :: rest =>
    if c.done then [StreamEv.endOfStream]
    else if c.hasValue then
      StreamEv.append :: StreamEv.ackAwaited :: ingestTrace rest
    else ingestTrace rest

/-- Number of occurrences of one event in a trace. -/
def countEv (e : StreamEv) : List StreamEv → Nat
  | [] => 0
  | x :: t => (if x = e then 1 else 0) + countEv e t

/- ===================================================================
   Rust float remainder.  Rust's `%` on f64 is the IEEE remainder with
   the sign of the dividend: x % y = x - y * trunc(x / y).  Both hue
   updates (`(hue + step) % 360.0`) and the brightness update
   (`(brightness + delta) % 100.0`) use it.  `realMod` is mathematical
   (floor) modulus; the two agree on nonnegative dividends.
   =================================================================== -/

/-- Truncation toward zero on rationals, as in Rust float-to-int
truncation underlying `%`. -/
def ratTrunc (q : ℚ) : ℤ := if 0 ≤ q then ⌊q⌋ else ⌈q⌉

/-- Rust's `%` on f64, modelled on exact rationals. -/
def rustRem (x y : ℚ) : ℚ := x - y * (ratTrunc (x / y) : ℚ)

/-- Mathematical (floor) modulus on rationals. -/
def realMod (x m : ℚ) : ℚ := x - m * (⌊x / m⌋ : ℚ)

/- ===================================================================
   Ring renderer, from src/ring_style.rs (`Visualizer`).  State carried
   across draws: canvas size, the 128 previous smoothed values, and the
   rotating hue.  `draw` runs the 128-iteration smoothing loop (which
   panics, i.e. returns `none`, when the snapshot is shorter than 128),
   the center orb, the bass accent dots, and finally advances the hue by
   0.5 modulo 360 with Rust `%`.
   =================================================================== -/

/-- Number of angular sectors, `let bars = 128` in
`draw_circular_visualizer`. -/
def bars : Nat := 128

/-- State of a `Visualizer` (src/ring_style.rs lines 7-15), with the
f64 fields as exact rationals. -/
structure RingState where
  width : ℚ
  height : ℚ
  prev : List ℚ
  hue : ℚ

/-- `Visualizer::new`: previous values start as 128 zeros, hue at 0
(src/ring_style.rs lines 20-40). -/
def ringNew (w h : ℚ) : RingState :=
  { width := w, height := h, prev := List.replicate 128 0, hue := 0 }

/-- The indexed loop of `draw_circular_visualizer` (src/ring_style.rs
lines 80-103): iteration i reads `audio_data[i]` and
`previous_values[i]` and stores their average back at index i.  Both
accesses are Rust slice indexing, which panics out of bounds; `none`
models the panic.  The loop consumes one element of each list per
iteration, for `n` iterations. -/
def smoothLoop : Nat → List ℕ → List ℚ → Option (List ℚ)
  | 0, _, prev => some prev
  | _ + 1, [], _ => none
  | _ + 1, _ :: _, [] => none
  | n + 1, a :: audioRest, p :: prevRest =>
    (smoothLoop n audioRest prevRest).map
      (fun r => (((a : ℚ) + p) / 2) :: r)

/-- The bass measure of `draw_particles` (src/ring_style.rs line 120):
mean of the lowest four bins, computed as sum of `take 4` divided by
4.0. -/
def bassMeasure (audio : List ℕ) : ℚ :=
  (((audio.take 4).map (fun x : ℕ => (x : ℚ))).sum) / 4

/-- Accent dots scattered by `draw_particles` (src/ring_style.rs lines
118-137): when the bass measure exceeds 200, twenty dots are drawn, dot
i at angle i/20 * 2pi and at distance `bass / 255 * (height * 0.2)`
from the center.  The list collects each drawn dot's distance. -/
def ringAccentDots (audio : List ℕ) (height : ℚ) : List ℚ :=
  if bassMeasure audio > 200 then
    (List.range 20).map (fun _ => bassMeasure audio / 255 * (height * (1 / 5)))
  else []

/-- One call of `Visualizer::draw` (src/ring_style.rs lines 43-67):
runs the smoothing loop over the 128 sectors, emits the accent dots,
and advances the hue by 0.5 with Rust `%` 360.  `none` models the
panic of an out-of-bounds snapshot access. -/
def ringDraw (s : RingState) (audio : List ℕ) :
    Option (RingState × List ℚ) :=
  match smoothLoop bars audio s.prev with
  | none => none
  | some prevNew =>
    some ({ s with prev := prevNew, hue := rustRem (s.hue + 1 / 2) 360 },
          ringAccentDots audio s.height)

/-- Iterated draws: one `Visualizer::draw` per snapshot, in order,
propagating a panic. -/
def ringDraws (s : RingState) : List (List ℕ) → Option RingState
  | [] => some s
  | a :: rest =>
    match ringDraw s a with
    | none => none
    | some (s2, _) => ringDraws s2 rest

/- ===================================================================
   Rainbow renderer, from src/rainbow_style.rs (`Bg`).  The JavaScript
   `Math.random()` source is modelled as an explicit stream of
   rationals with a cursor; every call of `random()` in the source
   consumes the next stream value.
   =================================================================== -/

/-- The `Math.random()` source: a stream of values and the position of
the next one. -/
structure RandGen where
  stream : Nat → ℚ
  pos : Nat

/-- One call of `random()`: yields the current stream value and
advances the cursor. -/
def RandGen.next (g : RandGen) : ℚ × RandGen :=
  (g.stream g.pos, { stream := g.stream, pos := g.pos + 1 })

/-- A particle record (src/rainbow_style.rs lines 111-119), f64 fields
as exact rationals. -/
structure Particle where
  x : ℚ
  y : ℚ
  size : ℚ
  lifetime : ℚ
  speedX : ℚ
  speedY : ℚ

/-- `Particle::new` (src/rainbow_style.rs lines 122-131): five
`random()` calls, in field order x, y, size, speed_x, speed_y. -/
def Particle.new (w h : ℚ) (g : RandGen) : Particle × RandGen :=
  let (r0, g0) := g.next
  let (r1, g1) := g0.next
  let (r2, g2) := g1.next
  let (r3, g3) := g2.next
  let (r4, g4) := g3.next
  ({ x := r0 * w - w / 2
   , y := r1 * h - h / 2
   , size := r2 * 3 + 1
   , lifetime := 0
   , speedX := r3 * 2 - 1
   , speedY := r4 * 2 - 1 }, g4)

/-- `Particle::update` (src/rainbow_style.rs lines 133-141): drift by
velocity scaled with treble/255, age by one, and respawn in place when
the position leaves the centered canvas bounds. -/
def Particle.update (p : Particle) (treble w h : ℚ) (g : RandGen) :
    Particle × RandGen :=
  let x2 := p.x + p.speedX * treble / 255
  let y2 := p.y + p.speedY * treble / 255
  if x2 > w / 2 ∨ x2 < -(w / 2) ∨ y2 > h / 2 ∨ y2 < -(h / 2) then
    Particle.new w h g
  else
    ({ p with x := x2, y := y2, lifetime := p.lifetime + 1 }, g)

/-- The `(0..100).map(|_| Particle::new(..)).collect()` of `Bg::new`,
generalised over the count: build `n` particles in order, threading the
random stream. -/
def mkParticles (w h : ℚ) : Nat → RandGen → List Particle × RandGen
  | 0, g => ([], g)
  | n + 1, g =>
    let (p, g2) := Particle.new w h g
    let (ps, g3) := mkParticles w h n g2
    (p :: ps, g3)

/-- State of a `Bg` renderer (src/rainbow_style.rs lines 15-26). -/
structure BgState where
  width : ℚ
  height : ℚ
  prevValues : List ℚ
  hue : ℚ
  brightness : ℚ
  saturation : ℚ
  particles : List Particle

/-- `Bg::new` (src/rainbow_style.rs lines 31-56): 100 particles, 64
zero previous values, hue 0, brightness 50, saturation 100. -/
def bgNew (w h : ℚ) (g : RandGen) : BgState × RandGen :=
  let (ps, g2) := mkParticles w h 100 g
  ({ width := w, height := h, prevValues := List.replicate 64 0
   , hue := 0, brightness := 50, saturation := 100, particles := ps }, g2)

/-- The treble measure of `Bg::draw_particles` (src/rainbow_style.rs
line 94): mean over snapshot bins 10..29 via skip 10, take 20, summed
and divided by 20.0. -/
def trebleMeasure (audio : List ℕ) : ℚ :=
  ((((audio.drop 10).take 20).map (fun x : ℕ => (x : ℚ))).sum) / 20

/-- The particle loop of `Bg::draw_particles` (src/rainbow_style.rs
lines 96-107): update every particle in order, threading the random
stream through respawns. -/
def updateParticles (treble w h : ℚ) :
    List Particle → RandGen → List Particle × RandGen
  | [], g => ([], g)
  | p :: ps, g =>
    let (p2, g2) := Particle.update p treble w h g
    let (rest, g3) := updateParticles treble w h ps g2
    (p2 :: rest, g3)

/-- One call of `Bg::draw` (src/rainbow_style.rs lines 59-84): paint
the background from the current state, update the particles against
the treble measure, then advance hue by 1 and perturb brightness by
`random() * 10 - 5`, both with Rust `%`. -/
def bgDraw (s : BgState) (audio : List ℕ) (g : RandGen) :
    BgState × RandGen :=
  let (ps, g2) := updateParticles (trebleMeasure audio) s.width s.height
      s.particles g
  let (r, g3) := g2.next
  ({ s with particles := ps
          , hue := rustRem (s.hue + 1) 360
          , brightness := rustRem (s.brightness + (r * 10 - 5)) 100 }, g3)

/-- Iterated draws of a `Bg` renderer, one snapshot per call. -/
def bgDraws (s : BgState) : List (List ℕ) → RandGen → BgState × RandGen
  | [], g => (s, g)
  | a :: rest, g =>
    let (s2, g2) := bgDraw s a g
    bgDraws s2 rest g2

/- ===================================================================
   Orchestrator lifecycle, from src/lib.rs (`SharedAudioProcessor`).
   The DOM is external: each attached playback audio element is
   tagged with the outcome its `remove_child` call would have (the
   environment's behavior), and each registered renderer surface is
   tracked by a flag saying whether `clear_rect` has been invoked on
   it since the last draw.
   =================================================================== -/

/-- Orchestrator state relevant to the lifecycle operations: the
`is_playing` flag, the playback audio elements currently attached to
the document (each tagged with its detach outcome), and one
cleared-flag per registered renderer instance. -/
structure ProcState where
  isPlaying : Bool
  audio : List Bool
  instances : List Bool

/-- The detach loop of `stop_audio` (src/lib.rs lines 192-204): remove
each audio element from its parent; `remove_child(..)?` propagates the
first failure, aborting the whole call and leaving the failing element
and all later ones attached. Returns the elements still attached and
the loop's outcome. -/
def detachAll : List Bool → List Bool × Except Unit Unit
  | [] => ([], Except.ok ())
  | ok :: rest =>
    if ok then detachAll rest
    else (ok :: rest, Except.error ())

/-- `SharedAudioProcessor::stop_audio` (src/lib.rs lines 189-208):
clear `is_playing` first, then detach every audio element (the `?`
propagates a failure immediately), and only on full success reach
`clear_all`, which clears every renderer surface. -/
def stop_audio (s : ProcState) : ProcState × Except Unit Unit :=
  let s1 : ProcState :=
    { isPlaying := false, audio := s.audio, instances := s.instances }
  match detachAll s.audio with
  | (rem, Except.ok ()) =>
    ({ s1 with audio := rem
             , instances := s1.instances.map (fun _ => true) }, Except.ok ())
  | (rem, Except.error ()) =>
    ({ s1 with audio := rem }, Except.error ())

/-- The session bookkeeping of
`SharedAudioProcessor::process_audio_from_path` (src/lib.rs lines
73-186): unconditionally create a fresh playback audio element (tagged
with its future detach outcome `d`), append it to the document body,
and set `is_playing`. No teardown of previously attached elements
occurs anywhere in the function. -/
def process_audio_from_path (s : ProcState) (d : Bool) : ProcState :=
  { isPlaying := true, audio := s.audio ++ [d], instances := s.instances }

/- ===================================================================
   Concrete inputs used for witnesses and counterexamples
   =================================================================== -/

/-- The `Math.random()` stream that always yields 0 (a legal outcome
stream, since every value of `Math.random()` lies in [0,1)). -/
def zeroGen : RandGen := { stream := fun _ => 0, pos := 0 }

/-- The brightness value after n draws with all-zero randomness: every
draw adds `0 * 10 - 5 = -5` and reduces with Rust `%` 100.  Mirrors the
brightness component of `bgDraws` on all-zero streams. -/
def bSteps : Nat → ℚ → ℚ
  | 0, b => b
  | n + 1, b => bSteps n (rustRem (b - 5) 100)

/-- A concrete rainbow-renderer state used as a witness input: a 2 by 2
surface in the constructor's initial hue and brightness, with an empty
particle pool (the pool does not influence hue or brightness). -/
def bgProbe : BgState :=
  { width := 2, height := 2, prevValues := [], hue := 0,
    brightness := 50, saturation := 100, particles := [] }

/- ===================================================================
   Supporting lemmas
   =================================================================== -/

theorem realMod_nonneg {m : ℚ} (hm : 0 < m) (x : ℚ) : 0 ≤ realMod x m := by
  have h := Int.sub_one_lt_floor (x / m)
  have hfl : (⌊x / m⌋ : ℚ) ≤ x / m := Int.floor_le (x / m)
  have : m * (⌊x / m⌋ : ℚ) ≤ m * (x / m) := by
    exact mul_le_mul_of_nonneg_left hfl (le_of_lt hm)
  have hx : m * (x / m) = x := by
    field_simp
  unfold realMod
  nlinarith

theorem realMod_lt {m : ℚ} (hm : 0 < m) (x : ℚ) : realMod x m < m := by
  have hfl : x / m < (⌊x / m⌋ : ℚ) + 1 := Int.lt_floor_add_one (x / m)
  have : m * (x / m) < m * ((⌊x / m⌋ : ℚ) + 1) := by
    exact mul_lt_mul_of_pos_left hfl hm
  have hx : m * (x / m) = x := by
    field_simp
  unfold realMod
  nlinarith

theorem realMod_eq_self {m x : ℚ} (hm : 0 < m) (h0 : 0 ≤ x) (h1 : x < m) :
    realMod x m = x := by
  have hfl : ⌊x / m⌋ = 0 := by
    have ha : 0 ≤ x / m := div_nonneg h0 (le_of_lt hm)
    have hb : x / m < 1 := by
      rw [div_lt_one hm]; exact h1
    exact Int.floor_eq_zero_iff.mpr ⟨ha, hb⟩
  unfold realMod
  rw [hfl]
  simp

theorem realMod_sub_int_mul {m : ℚ} (hm : 0 < m) (y : ℚ) (k : ℤ) :
    realMod (y - m * (k : ℚ)) m = realMod y m := by
  have hm0 : m ≠ 0 := ne_of_gt hm
  have hdiv : (y - m * (k : ℚ)) / m = y / m - (k : ℚ) := by
    field_simp
  unfold realMod
  rw [hdiv, Int.floor_sub_int]
  push_cast
  ring

theorem realMod_realMod_add {m : ℚ} (hm : 0 < m) (x c : ℚ) :
    realMod (realMod x m + c) m = realMod (x + c) m := by
  have : realMod x m + c = (x + c) - m * ((⌊x / m⌋ : ℤ) : ℚ) := by
    unfold realMod
    ring
  rw [this, realMod_sub_int_mul hm]

theorem rustRem_eq_realMod {m x : ℚ} (hm : 0 < m) (hx : 0 ≤ x) :
    rustRem x m = realMod x m := by
  unfold rustRem realMod ratTrunc
  have : 0 ≤ x / m := div_nonneg hx (le_of_lt hm)
  rw [if_pos this]

/-- Bound on Rust remainder for dividends smaller than twice the
modulus in absolute value: the result keeps the dividend's sign and is
strictly within (-m, m). -/
theorem rustRem_bound {m x : ℚ} (hm : 0 < m) (hlo : -(2 * m) < x)
    (hhi : x < 2 * m) : -m < rustRem x m ∧ rustRem x m < m := by
  rcases le_or_lt 0 x with hx | hx
  · rw [rustRem_eq_realMod hm hx]
    constructor
    · have := realMod_nonneg hm x
      linarith
    · exact realMod_lt hm x
  · have hq : x / m < 0 := div_neg_of_neg_of_pos hx hm
    have hnot : ¬ 0 ≤ x / m := not_le.mpr hq
    unfold rustRem ratTrunc
    rw [if_neg hnot]
    rcases lt_or_le (-m) x with hge | hlt
    · have hceil : ⌈x / m⌉ = 0 := by
        apply Int.ceil_eq_zero_iff.mpr
        constructor
        · show (-1 : ℚ) < x / m
          rw [lt_div_iff₀ hm]
          nlinarith
        · exact le_of_lt hq
      rw [hceil]
      push_cast
      constructor <;> nlinarith
    · have hceil : ⌈x / m⌉ = -1 := by
        apply Int.ceil_eq_iff.mpr
        constructor
        · show ((-1 : ℤ) : ℚ) - 1 < x / m
          push_cast
          rw [lt_div_iff₀ hm]
          nlinarith
        · show x / m ≤ ((-1 : ℤ) : ℚ)
          push_cast
          rw [div_le_iff₀ hm]
          nlinarith
      rw [hceil]
      push_cast
      constructor <;> nlinarith

theorem smoothLoop_isSome :
    ∀ (n : Nat) (a : List ℕ) (p : List ℚ),
      (smoothLoop n a p).isSome ↔ n ≤ a.length ∧ n ≤ p.length := by
  intro n
  induction n with
  | zero => intro a p; simp [smoothLoop]
  | succ n ih =>
    intro a p
    cases a with
    | nil => simp [smoothLoop]
    | cons x xs =>
      cases p with
      | nil => simp [smoothLoop]
      | cons q qs =>
        simp only [smoothLoop, List.length_cons]
        cases h : smoothLoop n xs qs with
        | none =>
          have := (ih xs qs)
          rw [h] at this
          simp at this
          simp
          omega
        | some r =>
          have := (ih xs qs)
          rw [h] at this
          simp at this
          simp
          omega

theorem smoothLoop_length :
    ∀ (n : Nat) (a : List ℕ) (p r : List ℚ),
      smoothLoop n a p = some r → r.length = p.length := by
  intro n
  induction n with
  | zero =>
    intro a p r h
    simp [smoothLoop] at h
    rw [← h]
  | succ n ih =>
    intro a p r h
    cases a with
    | nil => simp [smoothLoop] at h
    | cons x xs =>
      cases p with
      | nil => simp [smoothLoop] at h
      | cons q qs =>
        simp only [smoothLoop] at h
        cases h2 : smoothLoop n xs qs with
        | none => rw [h2] at h; simp at h
        | some r2 =>
          rw [h2] at h
          simp at h
          rw [← h]
          simp [ih xs qs r2 h2]

theorem smoothLoop_getD :
    ∀ (n : Nat) (a : List ℕ) (p r : List ℚ),
      smoothLoop n a p = some r →
      ∀ i, r.getD i 0 =
        if i < n then ((a.getD i 0 : ℚ) + p.getD i 0) / 2 else p.getD i 0 := by
  intro n
  induction n with
  | zero =>
    intro a p r h i
    simp [smoothLoop] at h
    simp [← h]
  | succ n ih =>
    intro a p r h i
    cases a with
    | nil => simp [smoothLoop] at h
    | cons x xs =>
      cases p with
      | nil => simp [smoothLoop] at h
      | cons q qs =>
        simp only [smoothLoop] at h
        cases h2 : smoothLoop n xs qs with
        | none => rw [h2] at h; simp at h
        | some r2 =>
          rw [h2] at h
          simp at h
          subst h
          cases i with
          | zero => simp
          | succ j =>
            simp only [List.getD_cons_succ]
            rw [ih xs qs r2 h2 j]
            by_cases hj : j < n
            · have hj2 : j + 1 < n + 1 := by omega
              simp [hj, hj2]
            · have hj2 : ¬ (j + 1 < n + 1) := by omega
              simp [hj, hj2]

theorem smoothLoop_some_of_le {n : Nat} {a : List ℕ} {p : List ℚ}
    (ha : n ≤ a.length) (hp : n ≤ p.length) :
    ∃ r, smoothLoop n a p = some r := by
  have := (smoothLoop_isSome n a p).mpr ⟨ha, hp⟩
  exact Option.isSome_iff_exists.mp this

/-- The draw call succeeds exactly when the smoothing loop does. -/
theorem ringDraw_isSome (s : RingState) (audio : List ℕ) :
    (ringDraw s audio).isSome = (smoothLoop bars audio s.prev).isSome := by
  unfold ringDraw
  cases smoothLoop bars audio s.prev <;> simp


theorem updateParticles_length (treble w h : ℚ) :
    ∀ (ps : List Particle) (g : RandGen),
      (updateParticles treble w h ps g).1.length = ps.length := by
  intro ps
  induction ps with
  | nil => intro g; simp [updateParticles]
  | cons p rest ih =>
    intro g
    simp only [updateParticles, List.length_cons]
    rw [ih]

theorem Particle.new_stream (w h : ℚ) (g : RandGen) :
    ((Particle.new w h g).2).stream = g.stream := rfl

theorem Particle.update_stream (p : Particle) (treble w h : ℚ)
    (g : RandGen) : ((Particle.update p treble w h g).2).stream = g.stream := by
  unfold Particle.update
  by_cases hb :
      p.x + p.speedX * treble / 255 > w / 2 ∨
      p.x + p.speedX * treble / 255 < -(w / 2) ∨
      p.y + p.speedY * treble / 255 > h / 2 ∨
      p.y + p.speedY * treble / 255 < -(h / 2)
  · rw [if_pos hb]; rfl
  · rw [if_neg hb]

theorem updateParticles_stream (treble w h : ℚ) :
    ∀ (ps : List Particle) (g : RandGen),
      ((updateParticles treble w h ps g).2).stream = g.stream := by
  intro ps
  induction ps with
  | nil => intro g; rfl
  | cons p rest ih =>
    intro g
    simp only [updateParticles]
    rw [ih]
    exact Particle.update_stream p treble w h g

theorem mkParticles_length (w h : ℚ) :
    ∀ (n : Nat) (g : RandGen), (mkParticles w h n g).1.length = n := by
  intro n
  induction n with
  | zero => intro g; rfl
  | succ n ih =>
    intro g
    simp only [mkParticles, List.length_cons]
    rw [ih]

theorem bgNew_particles_length (w h : ℚ) (g : RandGen) :
    ((bgNew w h g).1).particles.length = 100 := by
  unfold bgNew
  simp only
  rw [mkParticles_length]

theorem bgDraw_particles (s : BgState) (audio : List ℕ) (g : RandGen) :
    ((bgDraw s audio g).1).particles =
      (updateParticles (trebleMeasure audio) s.width s.height
        s.particles g).1 := rfl

theorem bgDraw_hue (s : BgState) (audio : List ℕ) (g : RandGen) :
    ((bgDraw s audio g).1).hue = rustRem (s.hue + 1) 360 := rfl

theorem bgDraw_brightness (s : BgState) (audio : List ℕ) (g : RandGen) :
    ((bgDraw s audio g).1).brightness =
      rustRem (s.brightness +
        ((updateParticles (trebleMeasure audio) s.width s.height
            s.particles g).2.stream
          (updateParticles (trebleMeasure audio) s.width s.height
            s.particles g).2.pos * 10 - 5)) 100 := rfl

theorem bgDraw_width (s : BgState) (audio : List ℕ) (g : RandGen) :
    ((bgDraw s audio g).1).width = s.width := rfl

theorem bgDraw_height (s : BgState) (audio : List ℕ) (g : RandGen) :
    ((bgDraw s audio g).1).height = s.height := rfl

theorem bgDraw_stream (s : BgState) (audio : List ℕ) (g : RandGen) :
    ((bgDraw s audio g).2).stream = g.stream := by
  unfold bgDraw
  simp only
  rw [show ∀ gg : RandGen, (gg.next).2.stream = gg.stream from fun _ => rfl]
  rw [updateParticles_stream]

theorem detachAll_ok :
    ∀ l : List Bool, (detachAll l).2 = Except.ok () ↔ l.all id = true := by
  intro l
  induction l with
  | nil => simp [detachAll]
  | cons b rest ih =>
    cases b with
    | true => simpa [detachAll] using ih
    | false => simp [detachAll]

theorem detachAll_of_all {l : List Bool} (h : l.all id = true) :
    detachAll l = ([], Except.ok ()) := by
  induction l with
  | nil => rfl
  | cons b rest ih =>
    simp only [List.all_cons, Bool.and_eq_true, id] at h
    obtain ⟨hb, hrest⟩ := h
    subst hb
    simpa [detachAll] using ih hrest

/-- Rust remainder is the identity on dividends strictly inside
(-m, m). -/
theorem rustRem_self_of_abs_lt {m x : ℚ} (hm : 0 < m) (hlo : -m < x)
    (hhi : x < m) : rustRem x m = x := by
  rcases le_or_lt 0 x with hx | hx
  · rw [rustRem_eq_realMod hm hx]
    exact realMod_eq_self hm hx hhi
  · have hq : x / m < 0 := div_neg_of_neg_of_pos hx hm
    have hnot : ¬ 0 ≤ x / m := not_le.mpr hq
    unfold rustRem ratTrunc
    rw [if_neg hnot]
    have hceil : ⌈x / m⌉ = 0 := by
      apply Int.ceil_eq_zero_iff.mpr
      constructor
      · show (-1 : ℚ) < x / m
        rw [lt_div_iff₀ hm]
        nlinarith
      · exact le_of_lt hq
    rw [hceil]
    push_cast
    ring

theorem mkParticles_stream (w h : ℚ) :
    ∀ (n : Nat) (g : RandGen), ((mkParticles w h n g).2).stream = g.stream := by
  intro n
  induction n with
  | zero => intro g; rfl
  | succ n ih =>
    intro g
    simp only [mkParticles]
    rw [ih]
    rfl

theorem bgNew_brightness (w h : ℚ) (g : RandGen) :
    ((bgNew w h g).1).brightness = 50 := by
  unfold bgNew
  simp only

theorem bgNew_hue (w h : ℚ) (g : RandGen) : ((bgNew w h g).1).hue = 0 := by
  unfold bgNew
  simp only

theorem bgNew_stream (w h : ℚ) (g : RandGen) :
    ((bgNew w h g).2).stream = g.stream := by
  unfold bgNew
  simp only
  rw [mkParticles_stream]

theorem bgDraws_nil (s : BgState) (g : RandGen) : bgDraws s [] g = (s, g) :=
  rfl

theorem bgDraws_cons (s : BgState) (a : List ℕ) (rest : List (List ℕ))
    (g : RandGen) :
    bgDraws s (a :: rest) g =
      bgDraws (bgDraw s a g).1 rest (bgDraw s a g).2 := rfl

theorem bgDraws_particles_length (snaps : List (List ℕ)) :
    ∀ (s : BgState) (g : RandGen),
      ((bgDraws s snaps g).1).particles.length = s.particles.length := by
  induction snaps with
  | nil => intro s g; rfl
  | cons a rest ih =>
    intro s g
    rw [bgDraws_cons, ih]
    rw [bgDraw_particles, updateParticles_length]

/-- On an all-zero randomness stream, the brightness after a sequence
of draws is the `bSteps` chain: each draw perturbs by `0 * 10 - 5` and
reduces with Rust `%` 100, independent of the snapshots. -/
theorem bgDraws_brightness_zero (snaps : List (List ℕ)) :
    ∀ (s : BgState) (g : RandGen), g.stream = (fun _ => (0 : ℚ)) →
      ((bgDraws s snaps g).1).brightness = bSteps snaps.length s.brightness := by
  induction snaps with
  | nil => intro s g hg; rfl
  | cons a rest ih =>
    intro s g hg
    rw [bgDraws_cons]
    have hg2 : ((bgDraw s a g).2).stream = (fun _ => (0 : ℚ)) := by
      rw [bgDraw_stream, hg]
    rw [ih _ _ hg2]
    have hb : ((bgDraw s a g).1).brightness = rustRem (s.brightness - 5) 100 := by
      rw [bgDraw_brightness]
      have hv : (updateParticles (trebleMeasure a) s.width s.height
          s.particles g).2.stream
          ((updateParticles (trebleMeasure a) s.width s.height
            s.particles g).2.pos) = 0 := by
        rw [updateParticles_stream, hg]
      rw [hv]
      congr 1
      ring
    rw [hb]
    simp only [List.length_cons, bSteps]

/-- Hue evolution of iterated ring draws: each successful draw adds 0.5
and reduces with Rust `%` 360, which on the reachable hue range is the
floor modulus. -/
theorem ringDraws_hue (snaps : List (List ℕ)) :
    ∀ (s : RingState), s.prev.length = 128 → (∀ a ∈ snaps, 128 ≤ a.length) →
      0 ≤ s.hue → s.hue < 360 →
      ∃ s2, ringDraws s snaps = some s2 ∧ s2.prev.length = 128 ∧
        s2.hue = realMod (s.hue + (snaps.length : ℚ) * (1 / 2)) 360 ∧
        0 ≤ s2.hue ∧ s2.hue < 360 := by
  induction snaps with
  | nil =>
    intro s hp hs h0 h1
    refine ⟨s, rfl, hp, ?_, h0, h1⟩
    rw [show s.hue + (([] : List (List ℕ)).length : ℚ) * (1 / 2) = s.hue by
      simp]
    exact (realMod_eq_self (by norm_num) h0 h1).symm
  | cons a rest ih =>
    intro s hp hs h0 h1
    have ha : 128 ≤ a.length := hs a (by simp)
    obtain ⟨r, hr⟩ := smoothLoop_some_of_le
      (show bars ≤ a.length by simpa [bars] using ha)
      (show bars ≤ s.prev.length by simp [bars, hp])
    have hdraw : ringDraw s a =
        some ({ s with prev := r, hue := rustRem (s.hue + 1 / 2) 360 },
              ringAccentDots a s.height) := by
      unfold ringDraw
      rw [hr]
    have hhue1 : rustRem (s.hue + 1 / 2) 360 =
        realMod (s.hue + 1 / 2) 360 :=
      rustRem_eq_realMod (by norm_num) (by linarith)
    have hlen1 : r.length = 128 := by
      rw [smoothLoop_length bars a s.prev r hr, hp]
    have h0b : 0 ≤ realMod (s.hue + 1 / 2) 360 :=
      realMod_nonneg (by norm_num) _
    have h1b : realMod (s.hue + 1 / 2) 360 < 360 :=
      realMod_lt (by norm_num) _
    obtain ⟨s2, hs2, hp2, hh2, hb0, hb1⟩ :=
      ih { s with prev := r, hue := rustRem (s.hue + 1 / 2) 360 }
        (by simpa using hlen1) (fun b hb => hs b (by simp [hb]))
        (by rw [hhue1] at *; exact h0b) (by rw [hhue1] at *; exact h1b)
    refine ⟨s2, ?_, hp2, ?_, hb0, hb1⟩
    · simp only [ringDraws]
      rw [hdraw]
      exact hs2
    · rw [hh2]
      simp only [hhue1]
      rw [realMod_realMod_add (by norm_num)]
      congr 1
      simp only [List.length_cons]
      push_cast
      ring

/-- Hue evolution of iterated rainbow draws: each draw adds 1 and
reduces with Rust `%` 360. -/
theorem bgDraws_hue (snaps : List (List ℕ)) :
    ∀ (s : BgState) (g : RandGen), 0 ≤ s.hue → s.hue < 360 →
      ((bgDraws s snaps g).1).hue =
          realMod (s.hue + (snaps.length : ℚ) * 1) 360 ∧
        0 ≤ ((bgDraws s snaps g).1).hue ∧
        ((bgDraws s snaps g).1).hue < 360 := by
  induction snaps with
  | nil =>
    intro s g h0 h1
    rw [bgDraws_nil]
    refine ⟨?_, h0, h1⟩
    rw [show s.hue + (([] : List (List ℕ)).length : ℚ) * 1 = s.hue by simp]
    exact (realMod_eq_self (by norm_num) h0 h1).symm
  | cons a rest ih =>
    intro s g h0 h1
    rw [bgDraws_cons]
    have hh1 : ((bgDraw s a g).1).hue = realMod (s.hue + 1) 360 := by
      rw [bgDraw_hue]
      exact rustRem_eq_realMod (by norm_num) (by linarith)
    obtain ⟨ih1, ih2, ih3⟩ := ih (bgDraw s a g).1 (bgDraw s a g).2
      (by rw [hh1]; exact realMod_nonneg (by norm_num) _)
      (by rw [hh1]; exact realMod_lt (by norm_num) _)
    refine ⟨?_, ih2, ih3⟩
    rw [ih1, hh1, realMod_realMod_add (by norm_num)]
    congr 1
    simp only [List.length_cons]
    push_cast
    ring

theorem bassMeasure_replicate_201 :
    bassMeasure (List.replicate 128 201) = 201 := by
  unfold bassMeasure
  rw [List.take_replicate, List.map_replicate, List.sum_replicate]
  norm_num

/-- A successful smoothing loop determines the full result of
`Visualizer::draw`. -/
theorem ringDraw_of_smooth {s : RingState} {audio : List ℕ} {r : List ℚ}
    (h : smoothLoop bars audio s.prev = some r) :
    ringDraw s audio =
      some ({ s with prev := r, hue := rustRem (s.hue + 1 / 2) 360 },
            ringAccentDots audio s.height) := by
  unfold ringDraw
  rw [h]

/- ===================================================================
   Claim theorems
   =================================================================== -/

/-- C1 counterexample: the claim that `stop_audio` always returns
success and clears every renderer surface is false.  With one attached
audio element whose `remove_child` fails and one renderer, the call
returns an error (the `?` propagates the failure instead of swallowing
it) and the renderer's surface is never cleared. -/
theorem claim_C1_counterexample :
    (stop_audio { isPlaying := true, audio := [false]
                , instances := [false] }).2 = Except.error () ∧
    (Except.error () : Except Unit Unit) ≠ Except.ok () ∧
    ((stop_audio { isPlaying := true, audio := [false]
                 , instances := [false] }).1).instances = [false] := by
  refine ⟨rfl, ?_, rfl⟩
  simp

/-- C1 amended: `stop_audio` always clears `is_playing` first, so the
system is left not playing from any state; but detach failures are NOT
swallowed: the call returns success exactly when every
`remove_child` succeeds, and only in that case is `clear_all` reached
and every renderer surface cleared — on a detach failure the error
propagates and no surface is cleared. -/
theorem claim_C1 (s : ProcState) :
    ((stop_audio s).1).isPlaying = false ∧
    ((stop_audio s).2 = Except.ok () ↔ s.audio.all id = true) ∧
    ((stop_audio s).1).instances =
      (if s.audio.all id = true then s.instances.map (fun _ => true)
       else s.instances) := by
  by_cases h : s.audio.all id = true
  · rw [if_pos h]
    unfold stop_audio
    rw [detachAll_of_all h]
    simp [h]
  · rw [if_neg h]
    have h2 : (detachAll s.audio).2 = Except.error () := by
      rcases he : (detachAll s.audio).2 with u | u
      · rfl
      · exact absurd ((detachAll_ok s.audio).mp he) h
    rcases hd : detachAll s.audio with ⟨rem, e⟩
    rw [hd] at h2
    simp only at h2
    subst h2
    unfold stop_audio
    rw [hd]
    refine ⟨rfl, ?_, rfl⟩
    constructor
    · intro hok
      exact absurd hok (by simp)
    · intro hall
      exact absurd hall h

/-- C2: backpressure of the streaming ingestion loop.  In the event
trace of the loop, for every read sequence and every instant (trace
prefix), the number of appends issued never exceeds the number of
completed updateend acknowledgments by more than one: at most one
append is outstanding at any instant, because the loop awaits
`wait_for_updateend` immediately after every append. -/
theorem claim_C2 (chunks : List ReadChunk) (n : Nat) :
    countEv StreamEv.append ((ingestTrace chunks).take n) ≤
      countEv StreamEv.ackAwaited ((ingestTrace chunks).take n) + 1 := by
  induction chunks generalizing n with
  | nil => simp [ingestTrace, countEv]
  | cons c rest ih =>
    by_cases hdone : c.done
    · simp only [ingestTrace, if_pos hdone]
      cases n with
      | zero => simp [countEv]
      | succ m => simp [countEv, List.take]
    · by_cases hval : c.hasValue
      · simp only [ingestTrace, if_neg hdone, if_pos hval]
        cases n with
        | zero => simp [countEv]
        | succ m =>
          cases m with
          | zero => simp [countEv, List.take]
          | succ k =>
            simp only [List.take, countEv]
            have hk := ih k
            have d2 : (if StreamEv.ackAwaited = StreamEv.append then 1 else 0) = 0 := by
              simp
            have d3 : (if StreamEv.append = StreamEv.ackAwaited then 1 else 0) = 0 := by
              simp
            simp only [if_true, d2, d3]
            omega
      · simp only [ingestTrace, if_neg hdone, if_neg hval]
        exact ih n

/-- C5 counterexample: the claim that starting while a session is
active first performs stop semantics is false.  From a playing state
with one attached playback element, `process_audio_from_path` leaves
two playback elements concurrently attached (stop-first semantics
would leave exactly one). -/
theorem claim_C5_counterexample :
    (process_audio_from_path
      { isPlaying := true, audio := [true], instances := [] }
      true).audio.length = 2 ∧
    (process_audio_from_path
      ((stop_audio { isPlaying := true, audio := [true], instances := [] }).1)
      true).audio.length = 1 := by
  constructor <;> rfl

/-- C5 amended: `process_audio_from_path` performs no stop semantics at
all: from any state, playing or not, it attaches one additional
playback element, leaves every previously attached element in place,
and sets the playing flag — so starting while a session is active
yields two concurrently attached playback sessions. -/
theorem claim_C5 (s : ProcState) (d : Bool) :
    (process_audio_from_path s d).audio = s.audio ++ [d] ∧
    (process_audio_from_path s d).isPlaying = true ∧
    (process_audio_from_path s d).instances = s.instances := by
  exact ⟨rfl, rfl, rfl⟩

/-- C9 counterexample: the claim that the fetch URL is prefixed exactly
when the path lacks a scheme is false.  The path "ftp://host/a.mp3"
carries a scheme, yet the code prefixes it with the local endpoint
(its test is `starts_with("http")`, not the presence of a scheme), so
it is not fetched unchanged. -/
theorem claim_C9_counterexample :
    hasScheme "ftp://host/a.mp3" = true ∧
    serverUrl "ftp://host/a.mp3" = "http://127.0.0.1:3000ftp://host/a.mp3" ∧
    serverUrl "ftp://host/a.mp3" ≠ "ftp://host/a.mp3" := by
  refine ⟨by decide, by decide, by decide⟩

/-- C9 amended: the URL fetched is exactly the local endpoint
concatenated with the path when the path does not start with the
literal "http", and the path itself otherwise; equivalently, the path
is fetched unchanged precisely when it starts with "http" (not
precisely when it carries a scheme). -/
theorem claim_C9 (path : String) :
    (serverUrl path =
      (if listStartsWith path.data "http".data then path
       else "http://127.0.0.1:3000" ++ path)) ∧
    (serverUrl path = path ↔ listStartsWith path.data "http".data = true) := by
  refine ⟨rfl, ?_⟩
  constructor
  · intro h
    by_cases hb : listStartsWith path.data "http".data = true
    · exact hb
    · exfalso
      unfold serverUrl at h
      rw [if_neg hb] at h
      have hlen : ("http://127.0.0.1:3000" ++ path).length = path.length := by
        rw [h]
      rw [String.length_append] at hlen
      have h21 : ("http://127.0.0.1:3000" : String).length = 21 := by decide
      rw [h21] at hlen
      omega
  · intro h
    unfold serverUrl
    rw [if_pos h]

/-- C3: the smoothing recurrence of `RingRenderer.draw` holds exactly.
For every initial smoothed state of length 128 and snapshots S1, S2 of
length at least 128, two successive draws leave, at every bin i < 128,
smoothed[i] = (S2[i] + (S1[i] + smoothed0[i]) / 2) / 2. -/
theorem claim_C3 (s : RingState) (S1 S2 : List ℕ)
    (hp : s.prev.length = 128) (h1 : 128 ≤ S1.length)
    (h2 : 128 ≤ S2.length) :
    ∃ s1 d1 s2 d2,
      ringDraw s S1 = some (s1, d1) ∧ ringDraw s1 S2 = some (s2, d2) ∧
      ∀ i, i < 128 →
        s2.prev.getD i 0 =
          ((S2.getD i 0 : ℚ) +
            ((S1.getD i 0 : ℚ) + s.prev.getD i 0) / 2) / 2 := by
  obtain ⟨r1, hr1⟩ := smoothLoop_some_of_le
    (show bars ≤ S1.length by simpa [bars] using h1)
    (show bars ≤ s.prev.length by simp [bars, hp])
  have hl1 : r1.length = 128 := by
    rw [smoothLoop_length bars S1 s.prev r1 hr1, hp]
  have hr2s : smoothLoop bars S2
      (({ s with prev := r1, hue := rustRem (s.hue + 1 / 2) 360 }
        : RingState)).prev |>.isSome := by
    rw [smoothLoop_isSome]
    constructor
    · simpa [bars] using h2
    · simp [bars, hl1]
  obtain ⟨r2, hr2⟩ := Option.isSome_iff_exists.mp hr2s
  refine ⟨_, _, _, _, ringDraw_of_smooth hr1, ringDraw_of_smooth hr2, ?_⟩
  intro i hi
  have hib : i < bars := by simpa [bars] using hi
  have g2 := smoothLoop_getD bars S2 _ r2 hr2 i
  have g1 := smoothLoop_getD bars S1 s.prev r1 hr1 i
  rw [if_pos hib] at g1 g2
  show r2.getD i 0 = _
  rw [g2]
  show ((S2.getD i 0 : ℚ) + r1.getD i 0) / 2 = _
  rw [g1]

/-- C3 witness: the recurrence at a concrete renderer state and two
concrete snapshots. -/
theorem claim_C3_witness :
    (ringNew 2 2).prev.length = 128 ∧
    128 ≤ (List.replicate 128 (5 : ℕ)).length ∧
    128 ≤ (List.replicate 128 (9 : ℕ)).length ∧
    (∃ s1 d1 s2 d2,
      ringDraw (ringNew 2 2) (List.replicate 128 (5 : ℕ)) = some (s1, d1) ∧
      ringDraw s1 (List.replicate 128 (9 : ℕ)) = some (s2, d2) ∧
      ∀ i, i < 128 →
        s2.prev.getD i 0 =
          ((((List.replicate 128 (9 : ℕ)).getD i 0 : ℕ) : ℚ) +
            ((((List.replicate 128 (5 : ℕ)).getD i 0 : ℕ) : ℚ) +
              (ringNew 2 2).prev.getD i 0) / 2) / 2) :=
  ⟨by simp [ringNew], by simp, by simp,
    claim_C3 (ringNew 2 2) (List.replicate 128 5) (List.replicate 128 9)
      (by simp [ringNew]) (by simp) (by simp)⟩

/-- C4 counterexample: brightness does not stay in [0, 100).  Starting
from the constructor state and drawing 11 times with the all-zero
randomness stream (each perturbation is -5, a legal outcome of
`random() * 10 - 5`), the brightness reaches -5, because Rust `%`
keeps the dividend's sign. -/
theorem claim_C4_counterexample :
    ((bgDraws (bgNew 2 2 zeroGen).1 (List.replicate 11 ([] : List ℕ))
        (bgNew 2 2 zeroGen).2).1).brightness = -5 ∧
    ¬ (0 ≤ ((bgDraws (bgNew 2 2 zeroGen).1 (List.replicate 11 ([] : List ℕ))
        (bgNew 2 2 zeroGen).2).1).brightness) := by
  have hg : ((bgNew 2 2 zeroGen).2).stream = (fun _ => (0 : ℚ)) := by
    rw [bgNew_stream]
    rfl
  have e : ∀ b : ℚ, -95 < b → b < 105 → rustRem (b - 5) 100 = b - 5 :=
    fun b hb1 hb2 =>
      rustRem_self_of_abs_lt (by norm_num) (by linarith) (by linarith)
  have hmain : ((bgDraws (bgNew 2 2 zeroGen).1
      (List.replicate 11 ([] : List ℕ)) (bgNew 2 2 zeroGen).2).1).brightness
      = -5 := by
    rw [bgDraws_brightness_zero _ _ _ hg, bgNew_brightness,
      List.length_replicate]
    show bSteps 10 (rustRem ((50 : ℚ) - 5) 100) = -5
    rw [e 50 (by norm_num) (by norm_num)]
    show bSteps 9 (rustRem ((50 : ℚ) - 5 - 5) 100) = -5
    rw [e (50 - 5) (by norm_num) (by norm_num)]
    show bSteps 8 (rustRem ((50 : ℚ) - 5 - 5 - 5) 100) = -5
    rw [e (50 - 5 - 5) (by norm_num) (by norm_num)]
    show bSteps 7 (rustRem ((50 : ℚ) - 5 - 5 - 5 - 5) 100) = -5
    rw [e (50 - 5 - 5 - 5) (by norm_num) (by norm_num)]
    show bSteps 6 (rustRem ((50 : ℚ) - 5 - 5 - 5 - 5 - 5) 100) = -5
    rw [e (50 - 5 - 5 - 5 - 5) (by norm_num) (by norm_num)]
    show bSteps 5 (rustRem ((50 : ℚ) - 5 - 5 - 5 - 5 - 5 - 5) 100) = -5
    rw [e (50 - 5 - 5 - 5 - 5 - 5) (by norm_num) (by norm_num)]
    show bSteps 4
      (rustRem ((50 : ℚ) - 5 - 5 - 5 - 5 - 5 - 5 - 5) 100) = -5
    rw [e (50 - 5 - 5 - 5 - 5 - 5 - 5) (by norm_num) (by norm_num)]
    show bSteps 3
      (rustRem ((50 : ℚ) - 5 - 5 - 5 - 5 - 5 - 5 - 5 - 5) 100) = -5
    rw [e (50 - 5 - 5 - 5 - 5 - 5 - 5 - 5) (by norm_num) (by norm_num)]
    show bSteps 2
      (rustRem ((50 : ℚ) - 5 - 5 - 5 - 5 - 5 - 5 - 5 - 5 - 5) 100) = -5
    rw [e (50 - 5 - 5 - 5 - 5 - 5 - 5 - 5 - 5) (by norm_num) (by norm_num)]
    show bSteps 1
      (rustRem ((50 : ℚ) - 5 - 5 - 5 - 5 - 5 - 5 - 5 - 5 - 5 - 5) 100) = -5
    rw [e (50 - 5 - 5 - 5 - 5 - 5 - 5 - 5 - 5 - 5) (by norm_num)
      (by norm_num)]
    show bSteps 0
      (rustRem ((50 : ℚ) - 5 - 5 - 5 - 5 - 5 - 5 - 5 - 5 - 5 - 5 - 5) 100)
      = -5
    rw [e (50 - 5 - 5 - 5 - 5 - 5 - 5 - 5 - 5 - 5 - 5) (by norm_num)
      (by norm_num)]
    show ((50 : ℚ) - 5 - 5 - 5 - 5 - 5 - 5 - 5 - 5 - 5 - 5 - 5) = -5
    norm_num
  refine ⟨hmain, ?_⟩
  rw [hmain]
  norm_num

/-- C4 amended: the brightness drift is bounded by the open interval
(-100, 100), not [0, 100): one draw from any brightness in (-100, 100),
with any legal `random()` outcome in [0, 1), leaves the brightness in
(-100, 100); it can become negative because Rust `%` keeps the
dividend's sign. -/
theorem claim_C4 (s : BgState) (audio : List ℕ) (g : RandGen)
    (hlo : -100 < s.brightness) (hup : s.brightness < 100)
    (hg : ∀ n, 0 ≤ g.stream n ∧ g.stream n < 1) :
    -100 < ((bgDraw s audio g).1).brightness ∧
    ((bgDraw s audio g).1).brightness < 100 := by
  rw [bgDraw_brightness, updateParticles_stream]
  obtain ⟨hr0, hr1⟩ := hg ((updateParticles (trebleMeasure audio) s.width
    s.height s.particles g).2.pos)
  exact rustRem_bound (by norm_num) (by nlinarith) (by nlinarith)

/-- C4 witness: one draw at a concrete state and the all-zero
randomness stream. -/
theorem claim_C4_witness :
    ((-100 : ℚ) < bgProbe.brightness ∧ bgProbe.brightness < 100 ∧
      (∀ n, 0 ≤ zeroGen.stream n ∧ zeroGen.stream n < 1)) ∧
    (-100 < ((bgDraw bgProbe [] zeroGen).1).brightness ∧
      ((bgDraw bgProbe [] zeroGen).1).brightness < 100) :=
  ⟨⟨by show (-100 : ℚ) < 50; norm_num, by show (50 : ℚ) < 100; norm_num,
      fun n => ⟨le_refl 0, by show (0 : ℚ) < 1; norm_num⟩⟩,
    claim_C4 bgProbe [] zeroGen (by show (-100 : ℚ) < 50; norm_num)
      (by show (50 : ℚ) < 100; norm_num)
      (fun n => ⟨le_refl 0, by show (0 : ℚ) < 1; norm_num⟩)⟩

/-- C6: the particle pool of the rainbow renderer holds exactly 100
particles after construction and after every sequence of draws:
particles are respawned in place, never added or removed. -/
theorem claim_C6 (w h : ℚ) (g g2 : RandGen) (snaps : List (List ℕ)) :
    ((bgNew w h g).1).particles.length = 100 ∧
    ((bgDraws (bgNew w h g).1 snaps g2).1).particles.length = 100 := by
  refine ⟨bgNew_particles_length w h g, ?_⟩
  rw [bgDraws_particles_length, bgNew_particles_length]

/-- C7: for both renderer kinds the hue after n draws equals
(initial hue + n * step) mod 360 — step 0.5 for the ring renderer, 1
for the rainbow renderer — for every snapshot sequence, and the hue
stays in [0, 360) when started there. -/
theorem claim_C7 (rs : RingState) (snaps : List (List ℕ))
    (hp : rs.prev.length = 128) (hs : ∀ a ∈ snaps, 128 ≤ a.length)
    (h0 : 0 ≤ rs.hue) (h1 : rs.hue < 360)
    (bs : BgState) (bsnaps : List (List ℕ)) (g : RandGen)
    (hb0 : 0 ≤ bs.hue) (hb1 : bs.hue < 360) :
    (∃ s2, ringDraws rs snaps = some s2 ∧
      s2.hue = realMod (rs.hue + (snaps.length : ℚ) * (1 / 2)) 360 ∧
      0 ≤ s2.hue ∧ s2.hue < 360) ∧
    (((bgDraws bs bsnaps g).1).hue =
        realMod (bs.hue + (bsnaps.length : ℚ) * 1) 360 ∧
      0 ≤ ((bgDraws bs bsnaps g).1).hue ∧
      ((bgDraws bs bsnaps g).1).hue < 360) := by
  constructor
  · obtain ⟨s2, ha, _, hb, hc, hd⟩ := ringDraws_hue snaps rs hp hs h0 h1
    exact ⟨s2, ha, hb, hc, hd⟩
  · exact bgDraws_hue bsnaps bs g hb0 hb1

/-- C7 witness: one draw of each renderer kind at concrete states. -/
theorem claim_C7_witness :
    ((ringNew 2 2).prev.length = 128 ∧
      (∀ a ∈ [List.replicate 128 0], 128 ≤ a.length) ∧
      0 ≤ (ringNew 2 2).hue ∧ (ringNew 2 2).hue < 360 ∧
      0 ≤ bgProbe.hue ∧ bgProbe.hue < 360) ∧
    ((∃ s2, ringDraws (ringNew 2 2) [List.replicate 128 0] = some s2 ∧
        s2.hue = realMod ((ringNew 2 2).hue +
          (([List.replicate 128 0] : List (List ℕ)).length : ℚ) * (1 / 2))
          360 ∧
        0 ≤ s2.hue ∧ s2.hue < 360) ∧
      (((bgDraws bgProbe [[]] zeroGen).1).hue =
          realMod (bgProbe.hue + (([[]] : List (List ℕ)).length : ℚ) * 1)
            360 ∧
        0 ≤ ((bgDraws bgProbe [[]] zeroGen).1).hue ∧
        ((bgDraws bgProbe [[]] zeroGen).1).hue < 360)) :=
  ⟨⟨by simp [ringNew],
      by intro a ha; rw [List.mem_singleton] at ha; subst ha; simp,
      by show (0:ℚ) ≤ 0; norm_num, by show (0:ℚ) < 360; norm_num,
      by show (0:ℚ) ≤ 0; norm_num, by show (0:ℚ) < 360; norm_num⟩,
    claim_C7 (ringNew 2 2) [List.replicate 128 0] (by simp [ringNew])
      (by intro a ha; rw [List.mem_singleton] at ha; subst ha; simp)
      (by show (0:ℚ) ≤ 0; norm_num) (by show (0:ℚ) < 360; norm_num)
      bgProbe [[]] zeroGen
      (by show (0:ℚ) ≤ 0; norm_num) (by show (0:ℚ) < 360; norm_num)⟩

/-- C8: a snapshot whose lowest four bins have mean exactly 201 makes
`RingRenderer.draw` scatter exactly 20 accent dots, each at distance
201 / 255 * height * 0.2 from the center; and an all-zero snapshot
(bass measure 0) triggers no accent dots. -/
theorem claim_C8 (s : RingState) (audio : List ℕ)
    (hp : s.prev.length = 128) (hlen : 128 ≤ audio.length)
    (hbass : bassMeasure audio = 201) :
    (∃ s1 dots, ringDraw s audio = some (s1, dots) ∧ dots.length = 20 ∧
      ∀ d ∈ dots, d = 201 / 255 * (s.height * (1 / 5))) ∧
    (∀ (s2 : RingState) (audio2 : List ℕ), s2.prev.length = 128 →
      128 ≤ audio2.length → (∀ x ∈ audio2, x = 0) →
      ∃ s3, ringDraw s2 audio2 = some (s3, [])) := by
  constructor
  · obtain ⟨r, hr⟩ := smoothLoop_some_of_le
      (show bars ≤ audio.length by simpa [bars] using hlen)
      (show bars ≤ s.prev.length by simp [bars, hp])
    refine ⟨_, _, ringDraw_of_smooth hr, ?_, ?_⟩
    · unfold ringAccentDots
      rw [hbass, if_pos (by norm_num)]
      simp
    · intro d hd
      unfold ringAccentDots at hd
      rw [hbass, if_pos (by norm_num)] at hd
      simp only [List.mem_map, List.mem_range] at hd
      obtain ⟨j, _, hj⟩ := hd
      exact hj.symm
  · intro s2 audio2 hp2 hlen2 hzero
    obtain ⟨r, hr⟩ := smoothLoop_some_of_le
      (show bars ≤ audio2.length by simpa [bars] using hlen2)
      (show bars ≤ s2.prev.length by simp [bars, hp2])
    have hb0 : bassMeasure audio2 = 0 := by
      have hmap : ∀ q ∈ (audio2.take 4).map (fun x : ℕ => (x : ℚ)), q = 0 := by
        intro q hq
        rw [List.mem_map] at hq
        obtain ⟨y, hy, hxy⟩ := hq
        have hy0 : y = 0 := hzero y (List.take_subset _ _ hy)
        rw [← hxy, hy0]
        norm_num
      unfold bassMeasure
      rw [List.sum_eq_zero hmap]
      norm_num
    refine ⟨{ s2 with prev := r, hue := rustRem (s2.hue + 1 / 2) 360 }, ?_⟩
    rw [ringDraw_of_smooth hr]
    unfold ringAccentDots
    rw [hb0, if_neg (by norm_num)]

/-- C8 witness: a concrete snapshot of constant magnitude 201 and a
concrete renderer state of height 510. -/
theorem claim_C8_witness :
    ((ringNew 2 510).prev.length = 128 ∧
      128 ≤ (List.replicate 128 201).length ∧
      bassMeasure (List.replicate 128 201) = 201) ∧
    ((∃ s1 dots, ringDraw (ringNew 2 510) (List.replicate 128 201) =
        some (s1, dots) ∧ dots.length = 20 ∧
        ∀ d ∈ dots, d = 201 / 255 * ((ringNew 2 510).height * (1 / 5))) ∧
      (∀ (s2 : RingState) (audio2 : List ℕ), s2.prev.length = 128 →
        128 ≤ audio2.length → (∀ x ∈ audio2, x = 0) →
        ∃ s3, ringDraw s2 audio2 = some (s3, []))) :=
  ⟨⟨by simp [ringNew], by simp, bassMeasure_replicate_201⟩,
    claim_C8 (ringNew 2 510) (List.replicate 128 201) (by simp [ringNew])
      (by simp) bassMeasure_replicate_201⟩

/-- C10: `Visualizer::draw` indexes the snapshot at positions 0
through 127 unconditionally, so with the 128-entry smoothing state of
the constructor it succeeds exactly when the snapshot has length at
least 128, and panics (returns none) on any shorter snapshot. -/
theorem claim_C10 (s : RingState) (audio : List ℕ)
    (hp : s.prev.length = 128) :
    ((ringDraw s audio).isSome = true) ↔ 128 ≤ audio.length := by
  rw [ringDraw_isSome, smoothLoop_isSome]
  simp [bars, hp]

/-- C10 witness: the empty snapshot makes the draw panic, witnessed at
a concrete state. -/
theorem claim_C10_witness :
    (ringNew 2 2).prev.length = 128 ∧
    (((ringDraw (ringNew 2 2) []).isSome = true) ↔
      128 ≤ ([] : List ℕ).length) :=
  ⟨by simp [ringNew], claim_C10 (ringNew 2 2) [] (by simp [ringNew])⟩

end SpecViz
